import Mathlib

/-!
Verification of the trajectory post-processing core of the FishPy repository
(`lib/fish_3d/utility.py`): overlap detection, overlap resolution by integer
optimization, trajectory normalization (hole filling and interpolation), and
temporal stitching of trajectory batches.

Positions are modelled as rational triples; a missing (NaN) sample is
`Option.none`.  All floating-point comparisons in the source are modelled
exactly on `ℚ`; distance comparisons are carried out in squared form
(`dist < r` becomes `distSq < r^2`), which is exact for the nonnegative
tolerances used throughout.
-/

namespace FishPy

/-- A 3D point with rational coordinates. -/
structure Pt where
  x : ℚ
  y : ℚ
  z : ℚ
deriving DecidableEq, Repr, Inhabited

/-- Squared Euclidean distance between two points (`np.sum(np.square(p - q))`). -/
def distSq (p q : Pt) : ℚ :=
  (p.x - q.x) ^ 2 + (p.y - q.y) ^ 2 + (p.z - q.z) ^ 2

/-- A candidate trajectory fragment: positions over a local time window (with
`none` for a NaN row) together with its scalar reprojection error. -/
structure Frag where
  pos : List (Option Pt)
  err : ℚ
deriving DecidableEq, Repr, Inhabited

/-! ## `fill_hole_1d`

Source (`lib/fish_3d/utility.py`, lines 690-716): starting from a copy of the
boolean array, for probe sizes `s = size+2, size+1, ..., 3` (descending) and
each window position `shift`, if the window `filled[shift : shift+s]` equals
the probe `[1, 0, ..., 0, 1]`, the whole window is set to 1. -/

/-- Embeds `np.array_equal(probe, filled[shift : shift + s])` where
`probe = [1, 0, ..., 0, 1]` of length `s`: the window must lie inside the
array, have `true` at both ends, and `false` everywhere strictly inside. -/
def probeMatches (c : List Bool) (shift s : ℕ) : Bool :=
  decide (shift + s ≤ c.length) && c.getD shift false &&
    c.getD (shift + s - 1) false &&
    decide (∀ k < s - 2, c.getD (shift + 1 + k) false = false)

/-- Sets `filled[shift : shift + s] = 1`. -/
def setRange (c : List Bool) (shift s : ℕ) : List Bool :=
  (List.range c.length).map fun i =>
    if shift ≤ i ∧ i < shift + s then true else c.getD i false

/-- One iteration of the inner loop of `fill_hole_1d`. -/
def fillStep (s : ℕ) (c : List Bool) (shift : ℕ) : List Bool :=
  if probeMatches c shift s then setRange c shift s else c

/-- The inner loop: `for shift in range(0, len(binary) - s + 1)`. -/
def fillPass (c : List Bool) (s : ℕ) : List Bool :=
  (List.range (c.length + 1 - s)).foldl (fillStep s) c

/-- The probe sizes `np.arange(size + 2, 2, -1) = [size+2, size+1, ..., 3]`. -/
def probeSizes (size : ℕ) : List ℕ :=
  (List.range' 3 size).reverse

/-- Embedding of `fill_hole_1d(binary, size)`: fill "holes" in a binary signal by probing
with descending probe sizes. -/
def fill_hole_1d (binary : List Bool) (size : ℕ) : List Bool :=
  (probeSizes size).foldl fillPass binary

/-- Index `i` lies in a *fillable hole* of `b`: a maximal run of `false` entries,
bounded by `true` entries on both sides, whose length is at most `size`.
(The window `[l, u]` below, having `true` just outside both ends and `false`
throughout, is automatically a maximal run.) -/
def inFillable (b : List Bool) (size i : ℕ) : Bool :=
  (List.range b.length).any fun l =>
    (List.range b.length).any fun u =>
      decide (1 ≤ l) && decide (l ≤ i) && decide (i ≤ u) &&
        decide (u + 1 < b.length) && decide (u + 1 - l ≤ size) &&
        b.getD (l - 1) false && b.getD (u + 1) false &&
        decide (∀ k ≤ u, l ≤ k → b.getD k false = false)

-- Sanity check: the doctest of `fill_hole_1d` in the source.

/-! ### Predicates used in the analysis of `fill_hole_1d` -/

def FillableWin (b : List Bool) (size l u : ℕ) : Prop :=
  1 ≤ l ∧ l ≤ u ∧ u + 1 < b.length ∧ u + 1 - l ≤ size ∧
    b.getD (l - 1) false = true ∧ b.getD (u + 1) false = true ∧
    ∀ k, k ≤ u → l ≤ k → b.getD k false = false

def Mono (b c : List Bool) : Prop :=
  c.length = b.length ∧ ∀ i, b.getD i false = true → c.getD i false = true

def Sound (b : List Bool) (size : ℕ) (c : List Bool) : Prop :=
  ∀ i, c.getD i false = true → b.getD i false = true ∨ inFillable b size i = true

def Grow (c c' : List Bool) : Prop :=
  ∀ i, c.getD i false = true → c'.getD i false = true

def Inv (b : List Bool) (size : ℕ) (c : List Bool) : Prop :=
  Mono b c ∧ Sound b size c

def RunFalse (l u : ℕ) (c : List Bool) : Prop :=
  ∀ k, l ≤ k → k ≤ u → c.getD k false = false

def RunTrue (l u : ℕ) (c : List Bool) : Prop :=
  ∀ k, l ≤ k → k ≤ u → c.getD k false = true

/-! ## `interpolate_nan` and `convert_traj_format`

Source lines 719-762 and 654-687.  `interpolate_nan` finds the first and
last valid rows (if none exists, the Python loop variables end at `len-1`
and `0` respectively), then per axis calls `np.interp` over the valid
anchors of that window.  `np.interp` raises
`ValueError: array of sample points is empty` whenever its anchor array is
empty, and an empty input leaves `head_idx` unbound (`NameError`); both are
modelled with `Except.error`. -/

/-- First valid row (`len - 1` when no row is valid, the final value of the
Python loop variable). -/
def headIdx (coords : List (Option Pt)) : ℕ :=
  match coords.findIdx? (fun p => p.isSome) with
  | some i => i
  | none => coords.length - 1

/-- Last valid row (`0` when no row is valid). -/
def tailIdx (coords : List (Option Pt)) : ℕ :=
  match coords.reverse.findIdx? (fun p => p.isSome) with
  | some i => coords.length - 1 - i
  | none => 0

/-- Embedding of `np.interp` at one query point, over anchor/value pairs sorted by
strictly ascending anchor: clip outside the anchor range, interpolate
linearly in between. -/
def npInterp (x : ℚ) : List (ℚ × ℚ) → ℚ
  | [] => 0
  | [(_, f0)] => f0
  | (x0, f0) :: (x1, f1) :: rest =>
    if x ≤ x0 then f0
    else if x ≤ x1 then f0 + (f1 - f0) * (x - x0) / (x1 - x0)
    else npInterp x ((x1, f1) :: rest)

/-- Embedding of `interpolate_nan(coordinates)`. -/
def interpolate_nan (coords : List (Option Pt)) :
    Except String (List (Option Pt)) :=
  if coords.length = 0 then
    .error "NameError: name head_idx is not defined"
  else
    let head := headIdx coords
    let tail := tailIdx coords
    let rel := List.range (tail + 1 - head)
    let notNan := rel.filter (fun r => (coords.getD (head + r) none).isSome)
    if notNan.length = 0 then
      .error "array of sample points is empty"
    else
      let anchors := fun (f : Pt → ℚ) =>
        notNan.map (fun (r : ℕ) =>
          ((r : ℚ), f ((coords.getD (head + r) none).getD default)))
      .ok <| (List.range coords.length).map (fun t =>
        match coords.getD t none with
        | some p => some p
        | none =>
          if head ≤ t ∧ t ≤ tail then
            some ⟨npInterp (((t - head : ℕ) : ℚ)) (anchors Pt.x),
                  npInterp (((t - head : ℕ) : ℚ)) (anchors Pt.y),
                  npInterp (((t - head : ℕ) : ℚ)) (anchors Pt.z)⟩
          else none)

/-- Embedding of `convert_traj_format(traj, t0)`: validity mask from the rows, mask with
holes of length `≤ 3` filled, interpolation, re-application of the mask, and
emission of the surviving `(t0 + offset, position)` samples. -/
def convert_traj_format (traj : Frag) (t0 : ℕ) :
    Except String (List (ℕ × Pt)) :=
  let coordinates := traj.pos
  let is_valid_array := coordinates.map (fun p => p.isSome)
  let filled := fill_hole_1d is_valid_array 3
  match interpolate_nan coordinates with
  | .error e => .error e
  | .ok interp =>
    let masked := (List.range coordinates.length).map (fun t =>
      if filled.getD t false then interp.getD t none else none)
    .ok (masked.enum.filterMap (fun tp => tp.2.map (fun q => (t0 + tp.1, q))))

/-! ## `get_valid_ctraj`

Source lines 765-790.  NOTE: the source initializes `is_valid = True` once
**outside** the loop and updates it with `*=`, so one invalid fragment
poisons every later fragment; the embedding reproduces this. -/

/-- The three per-fragment checks of `get_valid_ctraj` (all valid z-samples
strictly below `z_max`, strictly above `z_min`, and more than one valid
sample). -/
def ctrajChecks (t : Frag) (z_min z_max : ℚ) : Bool :=
  let z := t.pos.filterMap (fun p => p.map Pt.z)
  z.all (fun v => decide (v < z_max)) && z.all (fun v => decide (z_min < v))
    && decide (1 < z.length)

/-- Embedding of `get_valid_ctraj(trajectories, z_min, z_max)`. -/
def get_valid_ctraj (trajectories : List Frag) (z_min z_max : ℚ) :
    List Frag :=
  (trajectories.foldl
    (fun (acc : Bool × List Frag) t =>
      let v := acc.1 && ctrajChecks t z_min z_max
      (v, if v then acc.2 ++ [t] else acc.2))
    (true, [])).2

/-! ## `get_overlap_pairs`

Source lines 627-651: squared distances per offset (NaN when a sample is
missing; `NaN < rtol²` is false), adjacency when at least `num` offsets are
close, strict upper triangle, pairs enumerated row-major by `np.nonzero`. -/

/-- Number of offsets at which the two position lists are strictly closer
than `rtol` (squared comparison; missing samples never count). -/
def overlapCount (p q : List (Option Pt)) (rtol : ℚ) : ℕ :=
  ((p.zip q).filter (fun pq =>
    match pq.1, pq.2 with
    | some a, some b => decide (distSq a b < rtol ^ 2)
    | _, _ => false)).length

/-- Embedding of `get_overlap_pairs(trajs, num, rtol)`. -/
def get_overlap_pairs (trajs : List Frag) (num : ℕ) (rtol : ℚ) :
    List (ℕ × ℕ) :=
  (List.range trajs.length).flatMap (fun i =>
    (List.range trajs.length).filterMap (fun j =>
      if i < j ∧ num ≤ overlapCount (trajs.getD i default).pos
          (trajs.getD j default).pos rtol
      then some (i, j) else none))

/-! ## `np.argmin` and `join_pairs` -/

/-- Helper for `argmin`: index and value of the first minimum. -/
def argminAux : List ℚ → Option (ℕ × ℚ)
  | [] => none
  | x :: xs =>
    match argminAux xs with
    | none => some (0, x)
    | some (i, m) => if x ≤ m then some (0, x) else some (i + 1, m)

/-- Embedding of `np.argmin`: index of the first minimal element (0 on an empty list). -/
def argmin (xs : List ℚ) : ℕ :=
  match argminAux xs with
  | none => 0
  | some im => im.1

/-- Modelled from the spec: `join_pairs` is imported from the compiled
`cutility` extension module, which is not part of the source tree.  Per the
spec (§6 Graph Connectivity Utility and glossary "Clique / connected
component: a maximal group of fragments mutually linked by pairwise
overlap"), it joins the overlap pairs into connected groups.  Pairs are
merged left to right: each pair unites all existing groups containing
either endpoint, together with the endpoints themselves. -/
def join_pairs (pairs : List (ℕ × ℕ)) : List (List ℕ) :=
  pairs.foldl
    (fun groups p =>
      groups.filter (fun g => decide (¬(p.1 ∈ g ∨ p.2 ∈ g)))
        ++ [((groups.filter (fun g => decide (p.1 ∈ g ∨ p.2 ∈ g))).flatten
              ++ [p.1, p.2]).dedup])
    []

/-! ## `remove_spatial_overlap`

Source lines 924-966: drop fragments with at most one valid sample, join the
overlap pairs into groups, keep ungrouped fragments and, per group, the
member with minimal reprojection error (`np.argmin`, first index on ties). -/

/-- The fragments surviving the validity filter of
`remove_spatial_overlap`: more than one valid (non-NaN on the first
coordinate) sample. -/
def rsoFiltered (trajectories : List Frag) : List Frag :=
  trajectories.filter
    (fun t => decide (1 < (t.pos.filter (fun p => p.isSome)).length))

/-- The connected groups of overlapping fragments
(`jop = join_pairs(get_overlap_pairs(...))`). -/
def rsoGroups (trajectories : List Frag) (ntol : ℕ) (rtol : ℚ) :
    List (List ℕ) :=
  join_pairs (get_overlap_pairs (rsoFiltered trajectories) ntol rtol)

/-- Computes `p[np.argmin([errs[idx] for idx in p])]`: the group member with the
(first) minimal reprojection error. -/
def rsoChoice (fil : List Frag) (g : List ℕ) : ℕ :=
  g.getD (argmin (g.map (fun idx => (fil.getD idx default).err))) 0

def remove_spatial_overlap (trajectories : List Frag) (ntol : ℕ)
    (rtol : ℚ) : List Frag :=
  if (rsoFiltered trajectories).length = 0 then []
  else if (rsoGroups trajectories ntol rtol).length = 0 then
    rsoFiltered trajectories
  else
    ((List.range (rsoFiltered trajectories).length).filter
      (fun i => decide (i ∉ (rsoGroups trajectories ntol rtol).flatten))).map
        (fun i => (rsoFiltered trajectories).getD i default)
      ++ (rsoGroups trajectories ntol rtol).map (fun p =>
          (rsoFiltered trajectories).getD
            (rsoChoice (rsoFiltered trajectories) p) default)

/-! ## `get_temporal_overlapped_pairs`

Source lines 969-1023.  Squared distances between the trailing `lag`
samples of a fragment of `batch_1` and the leading `lag` samples of a
fragment of `batch_2`; adjacency when at least `ntol` offsets are strictly
closer than `rtol`; an optional uniqueness mask (`np.isclose` against the
column-wise and row-wise best score) applied when both batches are
nonempty. -/

/-- The uniqueness policy (`unique` argument: falsy, `'dist'`, or
`'conn'`). -/
inductive UniqueMode
  | nomode
  | dist
  | conn
deriving DecidableEq, Repr

/-- Per-offset squared distances over the lag window (`none` = NaN). -/
def lagDistSq (t1 t2 : Frag) (lag : ℕ) : List (Option ℚ) :=
  ((t1.pos.drop (t1.pos.length - lag)).zip (t2.pos.take lag)).map
    (fun pq => match pq.1, pq.2 with
      | some a, some b => some (distSq a b)
      | _, _ => none)

/-- The count `conn_mat[i, j] = np.sum(dist_mat[i, j] < rtol ** 2)` (NaN compares
false). -/
def connMat (b1 b2 : List Frag) (lag : ℕ) (rtol : ℚ) (i j : ℕ) : ℕ :=
  ((lagDistSq (b1.getD i default) (b2.getD j default) lag).filter (fun d =>
    match d with
    | some v => decide (v < rtol ^ 2)
    | none => false)).length

/-- The `np.nanmin` of a list of possibly-NaN values (`none` iff all NaN). -/
def nanminList (xs : List (Option ℚ)) : Option ℚ :=
  xs.foldl
    (fun acc d => match acc, d with
      | none, d => d
      | some m, none => some m
      | some m, some v => some (min m v))
    none

/-- The entry `min_dist_mat[i, j] = np.nanmin(dist_mat[i, j])`. -/
def minDistMat (b1 b2 : List Frag) (lag i j : ℕ) : Option ℚ :=
  nanminList (lagDistSq (b1.getD i default) (b2.getD j default) lag)

/-- Embedding of `np.isclose(a, b)` with the default tolerances:
`|a - b| ≤ 1e-8 + 1e-5 * |b|`. -/
def isclose (a b : ℚ) : Bool :=
  decide (|a - b| ≤ 1 / 10 ^ 8 + |b| / 10 ^ 5)

/-- Variant of `np.isclose` where either side may be NaN (result false). -/
def iscloseO (a b : Option ℚ) : Bool :=
  match a, b with
  | some a, some b => isclose a b
  | _, _ => false

/-- Column-wise best score (`axis=0` reduction) and row-wise best score
(`axis=1` reduction) for the `'dist'` policy. -/
def colMinDist (b1 b2 : List Frag) (lag j : ℕ) : Option ℚ :=
  nanminList ((List.range b1.length).map (fun i => minDistMat b1 b2 lag i j))

def rowMinDist (b1 b2 : List Frag) (lag i : ℕ) : Option ℚ :=
  nanminList ((List.range b2.length).map (fun j => minDistMat b1 b2 lag i j))

/-- Column-wise and row-wise maxima of `conn_mat` for the `'conn'` policy
(the counts are never NaN, so `np.nanmax` is the plain maximum). -/
def colMaxConn (b1 b2 : List Frag) (lag : ℕ) (rtol : ℚ) (j : ℕ) : ℕ :=
  ((List.range b1.length).map (fun i => connMat b1 b2 lag rtol i j)).foldl
    max 0

def rowMaxConn (b1 b2 : List Frag) (lag : ℕ) (rtol : ℚ) (i : ℕ) : ℕ :=
  ((List.range b2.length).map (fun j => connMat b1 b2 lag rtol i j)).foldl
    max 0

/-- Mask `mask_1[i, j]`: the pair's score is `np.isclose` to the best score of
column `j` (best over the fragments of `batch_1`). -/
def colClose (b1 b2 : List Frag) (lag : ℕ) (rtol : ℚ) (unique : UniqueMode)
    (i j : ℕ) : Bool :=
  match unique with
  | .dist => iscloseO (minDistMat b1 b2 lag i j) (colMinDist b1 b2 lag j)
  | _ =>
    isclose ((connMat b1 b2 lag rtol i j : ℕ) : ℚ)
      ((colMaxConn b1 b2 lag rtol j : ℕ) : ℚ)

/-- Mask `mask_2[i, j]`: the pair's score is `np.isclose` to the best score of
row `i` (best over the fragments of `batch_2`). -/
def rowClose (b1 b2 : List Frag) (lag : ℕ) (rtol : ℚ) (unique : UniqueMode)
    (i j : ℕ) : Bool :=
  match unique with
  | .dist => iscloseO (minDistMat b1 b2 lag i j) (rowMinDist b1 b2 lag i)
  | _ =>
    isclose ((connMat b1 b2 lag rtol i j : ℕ) : ℚ)
      ((rowMaxConn b1 b2 lag rtol i : ℕ) : ℚ)

/-- The product `np.logical_and(mask_1, mask_2)` for the active uniqueness policy. -/
def tempMask (b1 b2 : List Frag) (lag : ℕ) (rtol : ℚ) (unique : UniqueMode)
    (i j : ℕ) : Bool :=
  colClose b1 b2 lag rtol unique i j && rowClose b1 b2 lag rtol unique i j

/-- Embedding of `get_temporal_overlapped_pairs(batch_1, batch_2, lag, ntol, rtol,
unique)`. -/
def get_temporal_overlapped_pairs (b1 b2 : List Frag) (lag ntol : ℕ)
    (rtol : ℚ) (unique : UniqueMode) : List (ℕ × ℕ) :=
  (List.range b1.length).flatMap (fun i =>
    (List.range b2.length).filterMap (fun j =>
      if (decide (ntol ≤ connMat b1 b2 lag rtol i j) &&
          (if unique ≠ UniqueMode.nomode ∧ 0 < b1.length ∧ 0 < b2.length
           then tempMask b1 b2 lag rtol unique i j else true)) = true
      then some (i, j) else none))

/-! ## `resolve_temporal_overlap`

Source lines 1026-1137: the batch-pairwise stitching loop, carrying the
pools of extended trajectories and terminal fragments together with their
absolute start frames, plus the pair bookkeeping of the previous
iteration.  Calls `get_temporal_overlapped_pairs` with the default
`unique='conn'`. -/

structure StitchState where
  extended : List Frag
  t0_extended : List ℕ
  fragments : List Frag
  t0_fragments : List ℕ
  previous_pairs : List (ℕ × ℕ)
deriving Repr

/-- Concatenation of a trajectory (minus its trailing `lag` samples) with a
new batch fragment, summing the errors. -/
def catFrag (a b : Frag) (lag : ℕ) : Frag :=
  ⟨a.pos.take (a.pos.length - lag) ++ b.pos, a.err + b.err⟩

/-- One iteration of the loop `for i, b1 in enumerate(batches[1:])`. -/
def stitchStep (batches : List (List Frag)) (lag ntol : ℕ) (rtol : ℚ)
    (st : StitchState) (i : ℕ) : StitchState :=
  let b1 := batches.getD (i + 1) []
  let b0 := batches.getD i []
  let pairs_extend :=
    get_temporal_overlapped_pairs st.extended b1 lag ntol rtol .conn
  let new_extended_1 :=
    if 0 < st.extended.length then
      pairs_extend.map (fun pr =>
        catFrag (st.extended.getD pr.1 default) (b1.getD pr.2 default) lag)
    else []
  let new_t0_extended_1 :=
    if 0 < st.extended.length then
      pairs_extend.map (fun pr => st.t0_extended.getD pr.1 0)
    else []
  let ne_pe_indices :=
    if 0 < st.extended.length then
      (List.range st.extended.length).filter
        (fun idx => decide (idx ∉ pairs_extend.map Prod.fst))
    else []
  let fragments1 := ne_pe_indices.map (fun idx => st.extended.getD idx default)
  let t0_fragments1 := ne_pe_indices.map (fun idx => st.t0_extended.getD idx 0)
  let pne_indices := (List.range b0.length).filter
    (fun idx => decide (idx ∉ st.previous_pairs.map Prod.snd))
  let pne_trajs := pne_indices.map (fun idx => b0.getD idx default)
  let indice_not_extended := (List.range b1.length).filter
    (fun idx => decide (idx ∉ pairs_extend.map Prod.snd))
  let b1_not_extended :=
    indice_not_extended.map (fun idx => b1.getD idx default)
  let pairs_new0 :=
    get_temporal_overlapped_pairs pne_trajs b1_not_extended lag ntol rtol .conn
  let pairs_new := pairs_new0.map
    (fun pr => (pr.1, indice_not_extended.getD pr.2 0))
  let new_extended_2 := pairs_new.map (fun pr =>
    catFrag (pne_trajs.getD pr.1 default) (b1.getD pr.2 default) lag)
  let new_t0_extended_2 := pairs_new.map (fun _ => i * lag)
  let ne_ne_indices := (List.range pne_trajs.length).filter
    (fun idx => decide (idx ∉ pairs_new.map Prod.fst))
  let fragments2 := ne_ne_indices.map (fun idx => pne_trajs.getD idx default)
  let t0_fragments2 := ne_ne_indices.map (fun _ => i * lag)
  { extended := new_extended_1 ++ new_extended_2
    t0_extended := new_t0_extended_1 ++ new_t0_extended_2
    fragments := st.fragments ++ fragments1 ++ fragments2
    t0_fragments := st.t0_fragments ++ t0_fragments1 ++ t0_fragments2
    previous_pairs := pairs_extend ++ pairs_new }

/-- Embedding of `resolve_temporal_overlap(trajectory_batches, lag, ntol, rtol)`:
returns the resolved trajectories together with their absolute start
frames. -/
def resolve_temporal_overlap (batches : List (List Frag)) (lag ntol : ℕ)
    (rtol : ℚ) : List Frag × List ℕ :=
  let st := (List.range (batches.length - 1)).foldl
    (stitchStep batches lag ntol rtol) ⟨[], [], [], [], []⟩
  let b0 := batches.getD (batches.length - 2) []
  let pne_indices := (List.range b0.length).filter
    (fun idx => decide (idx ∉ st.previous_pairs.map Prod.snd))
  let pne_trajs := pne_indices.map (fun idx => b0.getD idx default)
  (st.extended ++ (st.fragments ++ pne_trajs),
   st.t0_extended ++ (st.t0_fragments
     ++ pne_trajs.map (fun _ => (batches.length - 1) * lag)))

/-! ## `solve_overlap_lp` and `solve_overlap_lp_fast`

Source lines 1323-1365 and 1421-1453.  The docplex optimization backend and
the scipy connected-components are external collaborators (spec §6); they
enter the embedding as parameters, constrained in the theorems by their
documented contracts (a returned assignment satisfies the model's
constraints; a component labelling merges adjacent vertices).  Distance
comparisons are in squared form, exact for the nonnegative `diameter`. -/

/-- Type of the optimization backend: given the subproblem (points, errors,
diameter) and a target size, returns an assignment of the binary variables
or `none` (infeasibility). -/
def SolverT : Type :=
  List Pt → List ℚ → ℚ → ℕ → Option (List Bool)

/-- The constraint system posted by `solve_overlap_lp` at target size `n`:
one binary variable per point, `sum x = n`, and for all `i ≠ j`
`(dist_mat[i,j] - diameter) * x_i * x_j ≥ 0` — i.e. two chosen points are
never strictly closer than `diameter`. -/
def lpFeasible (points : List Pt) (diameter : ℚ) (n : ℕ)
    (x : List Bool) : Prop :=
  x.length = points.length ∧ (x.filter id).length = n ∧
    ∀ i, i < points.length → ∀ j, j < points.length → i ≠ j →
      x.getD i false = true → x.getD j false = true →
      diameter ^ 2 ≤ distSq (points.getD i default) (points.getD j default)

instance (points : List Pt) (diameter : ℚ) (n : ℕ) (x : List Bool) :
    Decidable (lpFeasible points diameter n x) := by
  unfold lpFeasible
  infer_instance

/-- A sound backend: any returned assignment satisfies the posted
constraints (the documented contract of the Mathematical Optimization
Backend). -/
def SolverSound (solver : SolverT) : Prop :=
  ∀ points errors diameter n x,
    solver points errors diameter n = some x →
    lpFeasible points diameter n x

/-- The test `np.all(pdist(points) > diameter)`, in squared form. -/
def allPairsFar (points : List Pt) (diameter : ℚ) : Bool :=
  (List.range points.length).all (fun i =>
    (List.range points.length).all (fun j =>
      if i < j then
        decide (diameter ^ 2
          < distSq (points.getD i default) (points.getD j default))
      else true))

/-- Selection `points[indices]` for a boolean mask. -/
def maskSelect (points : List Pt) (x : List Bool) : List Pt :=
  ((List.range points.length).filter (fun i => x.getD i false)).map
    (fun i => points.getD i default)

/-- The loop `for n_target in range(N, 1, -1)`: first successful solve. -/
def lpSearch (solver : SolverT) (points : List Pt) (errors : List ℚ)
    (diameter : ℚ) : Option (List Bool) :=
  ((List.range' 2 (points.length - 1)).reverse).findSome?
    (fun n => solver points errors diameter n)

/-- Embedding of `solve_overlap_lp(points, errors, diameter)`. -/
def solve_overlap_lp (solver : SolverT) (points : List Pt)
    (errors : List ℚ) (diameter : ℚ) : List Pt :=
  if allPairsFar points diameter then points
  else if points.length ≤ 1 then points
  else
    match lpSearch solver points errors diameter with
    | some x => maskSelect points x
    | none => [points.getD (argmin errors) default]

/-- A sound component labelling of the proximity graph
(`distance < diameter`, zeroed diagonal): adjacent vertices carry the same
label (documented contract of the Graph Connectivity Utility). -/
def LabelsSound (points : List Pt) (diameter : ℚ) (labels : List ℕ) : Prop :=
  ∀ i, i < points.length → ∀ j, j < points.length → i ≠ j →
    distSq (points.getD i default) (points.getD j default) < diameter ^ 2 →
    labels.getD i 0 = labels.getD j 0

instance (points : List Pt) (diameter : ℚ) (labels : List ℕ) :
    Decidable (LabelsSound points diameter labels) := by
  unfold LabelsSound
  infer_instance

/-- The body of the clique loop of `solve_overlap_lp_fast`: singleton
components are kept as is, larger ones are passed to `solve_overlap_lp`. -/
def cliqueResult (solver : SolverT) (labels : List ℕ) (points : List Pt)
    (errors : List ℚ) (diameter : ℚ) (val : ℕ) : List Pt :=
  let clique := (List.range points.length).filter
    (fun i => labels.getD i 0 = val)
  if clique.length = 1 then clique.map (fun i => points.getD i default)
  else
    solve_overlap_lp solver (clique.map (fun i => points.getD i default))
      (clique.map (fun i => errors.getD i 0)) diameter

/-- Embedding of `solve_overlap_lp_fast(points, errors, diameter)`: solve each connected
component of the proximity graph independently (`labels`/`n_cliques` from
the external connectivity utility). -/
def solve_overlap_lp_fast (solver : SolverT) (labels : List ℕ)
    (nCliques : ℕ) (points : List Pt) (errors : List ℚ)
    (diameter : ℚ) : List Pt :=
  (List.range nCliques).flatMap
    (cliqueResult solver labels points errors diameter)

/-! ## Concrete data used in counterexamples and witnesses -/

/-- A backend that reports infeasibility on every query. -/
def failSolver : SolverT := fun _ _ _ _ => none

/-- A single-fragment batch whose positions are `(t0 + t, 0, 0)` for local
offsets `t = 0, ..., 5`. -/
def rampBatch (t0 : ℕ) : List Frag :=
  [⟨(List.range 6).map (fun t => some ⟨((t + t0 : ℕ) : ℚ), 0, 0⟩), 0⟩]

/-- The single fragment of `rampBatch t0`. -/
def rampFrag (t0 : ℕ) : Frag :=
  ⟨(List.range 6).map (fun t => some ⟨((t + t0 : ℕ) : ℚ), 0, 0⟩), 0⟩

/-- A fragment tracing a second object far from `rampFrag`'s positions:
`(t0 + t, 1000, 0)` for local offsets `t = 0, ..., 5`. -/
def farFrag (t0 : ℕ) : Frag :=
  ⟨(List.range 6).map (fun t => some ⟨((t + t0 : ℕ) : ℚ), 1000, 0⟩), 0⟩

/-- Three example fragments: A and B coincide at all three offsets, C is
far from both. -/
def exTrajA : Frag := ⟨[some ⟨0, 0, 0⟩, some ⟨1, 0, 0⟩, some ⟨2, 0, 0⟩], 1⟩

def exTrajB : Frag := ⟨[some ⟨0, 0, 0⟩, some ⟨1, 0, 0⟩, some ⟨2, 0, 0⟩], 2⟩

def exTrajC : Frag :=
  ⟨[some ⟨100, 0, 0⟩, some ⟨101, 0, 0⟩, some ⟨102, 0, 0⟩], 3⟩

/-! ## Characterization of `fill_hole_1d` -/

theorem getD_true_lt_length {c : List Bool} {i : ℕ}
    (h : c.getD i false = true) : i < c.length := by
  by_contra hlt
  rw [List.getD_eq_default _ _ (Nat.le_of_not_lt hlt)] at h
  exact Bool.false_ne_true h

theorem inFillable_iff (b : List Bool) (size i : ℕ) :
    inFillable b size i = true ↔
      ∃ l u, l ≤ i ∧ i ≤ u ∧ FillableWin b size l u := by
  unfold inFillable FillableWin
  simp only [List.any_eq_true, List.mem_range, Bool.and_eq_true, decide_eq_true_eq]
  constructor
  · rintro ⟨l, hl, u, hu, h⟩
    exact ⟨l, u, h.1.1.1.1.1.1.2, h.1.1.1.1.1.2, h.1.1.1.1.1.1.1,
      le_trans h.1.1.1.1.1.1.2 h.1.1.1.1.1.2, h.1.1.1.1.2, h.1.1.1.2,
      h.1.1.2, h.1.2, h.2⟩
  · rintro ⟨l, u, hli, hiu, h1, h2, h3, h4, h5, h6, h7⟩
    refine ⟨l, ?_, u, ?_, ?_⟩
    · omega
    · omega
    · exact ⟨⟨⟨⟨⟨⟨⟨h1, hli⟩, hiu⟩, h3⟩, h4⟩, h5⟩, h6⟩, h7⟩

theorem FillableWin.mem_fillable {b : List Bool} {size l u : ℕ}
    (hw : FillableWin b size l u) {k : ℕ} (hlk : l ≤ k) (hku : k ≤ u) :
    inFillable b size k = true :=
  (inFillable_iff b size k).mpr ⟨l, u, hlk, hku, hw⟩

theorem setRange_length (c : List Bool) (sh s : ℕ) :
    (setRange c sh s).length = c.length := by
  simp [setRange]

theorem getD_setRange (c : List Bool) (sh s i : ℕ) :
    (setRange c sh s).getD i false =
      if i < c.length then
        (if sh ≤ i ∧ i < sh + s then true else c.getD i false)
      else false := by
  by_cases h : i < c.length
  · rw [List.getD_eq_getElem _ _ (by simpa [setRange_length] using h)]
    simp [setRange, h]
  · rw [List.getD_eq_default _ _ (by simpa [setRange_length] using Nat.le_of_not_lt h)]
    simp [h]

theorem probeMatches_spec {c : List Bool} {shift s : ℕ}
    (h : probeMatches c shift s = true) :
    shift + s ≤ c.length ∧ c.getD shift false = true ∧
      c.getD (shift + s - 1) false = true ∧
      ∀ k < s - 2, c.getD (shift + 1 + k) false = false := by
  unfold probeMatches at h
  simp only [Bool.and_eq_true, decide_eq_true_eq] at h
  exact ⟨h.1.1.1, h.1.1.2, h.1.2, h.2⟩

theorem inFillable_false_self {b : List Bool} {size j : ℕ}
    (hj : inFillable b size j = true) : b.getD j false = false := by
  obtain ⟨l, u, hlj, hju, hw⟩ := (inFillable_iff b size j).mp hj
  exact hw.2.2.2.2.2.2 j hju hlj

theorem inFillable_succ {b : List Bool} {size j : ℕ}
    (hj : inFillable b size j = true) (hnext : b.getD (j + 1) false = false) :
    inFillable b size (j + 1) = true := by
  obtain ⟨l, u, hlj, hju, hw⟩ := (inFillable_iff b size j).mp hj
  rcases Nat.lt_or_ge j u with h | h
  · exact (inFillable_iff _ _ _).mpr ⟨l, u, by omega, h, hw⟩
  · have hju' : j = u := le_antisymm hju h
    rw [hju', hw.2.2.2.2.2.1] at hnext
    exact absurd hnext (by simp)

theorem inFillable_pred {b : List Bool} {size j : ℕ}
    (hj : inFillable b size j = true) (h1 : 1 ≤ j)
    (hprev : b.getD (j - 1) false = false) :
    inFillable b size (j - 1) = true := by
  obtain ⟨l, u, hlj, hju, hw⟩ := (inFillable_iff b size j).mp hj
  rcases Nat.lt_or_ge l j with h | h
  · exact (inFillable_iff _ _ _).mpr ⟨l, u, by omega, by omega, hw⟩
  · have hlj' : l = j := le_antisymm hlj h
    rw [← hlj', hw.2.2.2.2.1] at hprev
    exact absurd hprev (by simp)

theorem inFillable_of_stretch {b : List Bool} {size a c j k : ℕ}
    (hj : inFillable b size j = true)
    (hstretch : ∀ m, a ≤ m → m ≤ c → b.getD m false = false)
    (haj : a ≤ j) (hjc : j ≤ c) (hak : a ≤ k) (hkc : k ≤ c) :
    inFillable b size k = true := by
  have up : ∀ d, j + d ≤ c → inFillable b size (j + d) = true := by
    intro d
    induction d with
    | zero => exact fun _ => hj
    | succ n ih =>
      intro h
      have h1 := ih (by omega)
      have h2 := hstretch (j + n + 1) (by omega) (by omega)
      exact inFillable_succ h1 h2
  have down : ∀ d, d ≤ j - a → inFillable b size (j - d) = true := by
    intro d
    induction d with
    | zero => exact fun _ => hj
    | succ n ih =>
      intro h
      have h1 := ih (by omega)
      have h2 := hstretch (j - n - 1) (by omega) (by omega)
      have h3 : 1 ≤ j - n := by omega
      have := inFillable_pred h1 h3 h2
      simpa [show j - n - 1 = j - (n + 1) by omega] using this
  rcases Nat.le_total j k with h | h
  · have := up (k - j) (by omega)
    simpa [show j + (k - j) = k by omega] using this
  · have := down (j - k) (by omega)
    simpa [show j - (j - k) = k by omega] using this

theorem foldl_preserve {α β : Type} (P : α → Prop) (f : α → β → α) :
    ∀ (xs : List β) (init : α), P init →
      (∀ a x, P a → x ∈ xs → P (f a x)) → P (xs.foldl f init)
  | [], _, h, _ => h
  | x :: xs, init, h, hstep =>
    foldl_preserve P f xs (f init x) (hstep init x h (by simp))
      (fun a y ha hy => hstep a y ha (by simp [hy]))

theorem fillStep_mono {b c : List Bool} {s shift : ℕ} (h : Mono b c) :
    Mono b (fillStep s c shift) := by
  unfold fillStep
  split
  · refine ⟨by rw [setRange_length]; exact h.1, ?_⟩
    intro i hi
    have hi' := h.2 i hi
    have hlt : i < c.length := getD_true_lt_length hi'
    rw [getD_setRange, if_pos hlt]
    split
    · rfl
    · exact hi'
  · exact h

theorem fillStep_grow {c : List Bool} {s shift : ℕ} :
    Grow c (fillStep s c shift) := by
  intro i hi
  unfold fillStep
  split
  · have hlt : i < c.length := getD_true_lt_length hi
    rw [getD_setRange, if_pos hlt]
    split
    · rfl
    · exact hi
  · exact hi

theorem grow_trans {a b c : List Bool} (h1 : Grow a b) (h2 : Grow b c) :
    Grow a c := fun i hi => h2 i (h1 i hi)

theorem foldl_fillStep_grow {s : ℕ} :
    ∀ (xs : List ℕ) (c : List Bool), Grow c (xs.foldl (fillStep s) c)
  | [], _ => fun _ h => h
  | x :: xs, c => grow_trans fillStep_grow (foldl_fillStep_grow xs _)

theorem fillPass_grow (c : List Bool) (s : ℕ) : Grow c (fillPass c s) :=
  foldl_fillStep_grow _ _

theorem foldl_fillPass_grow :
    ∀ (xs : List ℕ) (c : List Bool), Grow c (xs.foldl fillPass c)
  | [], _ => fun _ h => h
  | x :: xs, c => grow_trans (fillPass_grow c x) (foldl_fillPass_grow xs _)

theorem probeMatches_window_sound {b c : List Bool} {size s shift : ℕ}
    (hm : Mono b c) (hs : Sound b size c) (h3 : 3 ≤ s) (hsz : s ≤ size + 2)
    (hp : probeMatches c shift s = true) :
    ∀ j, shift ≤ j → j ≤ shift + s - 1 →
      b.getD j false = true ∨ inFillable b size j = true := by
  obtain ⟨hlen, hL, hR, hInt⟩ := probeMatches_spec hp
  have hbfalse : ∀ k, shift + 1 ≤ k → k ≤ shift + s - 2 →
      b.getD k false = false := by
    intro k hk1 hk2
    have hk : k - (shift + 1) < s - 2 := by omega
    have hc := hInt _ hk
    rw [show shift + 1 + (k - (shift + 1)) = k by omega] at hc
    cases hb : b.getD k false
    · rfl
    · rw [hm.2 k hb] at hc; exact absurd hc (by simp)
  intro j hj1 hj2
  rcases eq_or_ne j shift with rfl | hne1
  · exact hs _ hL
  rcases eq_or_ne j (shift + s - 1) with rfl | hne2
  · exact hs _ hR
  have hj3 : shift + 1 ≤ j := by omega
  have hj4 : j ≤ shift + s - 2 := by omega
  right
  rcases hs _ hL with hbL | hfL
  · rcases hs _ hR with hbR | hfR
    · refine (inFillable_iff _ _ _).mpr
        ⟨shift + 1, shift + s - 2, hj3, hj4, ?_⟩
      have e1 : shift + s - 2 + 1 = shift + s - 1 := by omega
      have e2 : shift + 1 - 1 = shift := by omega
      refine ⟨by omega, by omega, ?_, by omega, ?_, ?_, ?_⟩
      · rw [← hm.1]; omega
      · rw [e2]; exact hbL
      · rw [e1]; exact hbR
      · exact fun k hk1 hk2 => hbfalse k hk2 hk1
    · have hbR' : b.getD (shift + s - 1) false = false :=
        inFillable_false_self hfR
      refine inFillable_of_stretch (a := shift + 1) (c := shift + s - 1)
        hfR ?_ (by omega) (le_refl _) hj3 (by omega)
      intro m hm1 hm2
      rcases eq_or_ne m (shift + s - 1) with rfl | hne
      · exact hbR'
      · exact hbfalse m hm1 (by omega)
  · have hbL' : b.getD shift false = false := inFillable_false_self hfL
    refine inFillable_of_stretch (a := shift) (c := shift + s - 2)
      hfL ?_ (le_refl _) (by omega) (by omega) hj4
    intro m hm1 hm2
    rcases eq_or_ne m shift with rfl | hne
    · exact hbL'
    · exact hbfalse m (by omega) hm2

theorem fillStep_sound {b c : List Bool} {size s shift : ℕ}
    (hm : Mono b c) (hs : Sound b size c) (h3 : 3 ≤ s) (hsz : s ≤ size + 2) :
    Sound b size (fillStep s c shift) := by
  unfold fillStep
  split
  case isTrue hp =>
    intro i hi
    rw [getD_setRange] at hi
    by_cases hlt : i < c.length
    · rw [if_pos hlt] at hi
      by_cases hw : shift ≤ i ∧ i < shift + s
      · exact probeMatches_window_sound hm hs h3 hsz hp i hw.1 (by omega)
      · rw [if_neg hw] at hi; exact hs _ hi
    · rw [if_neg hlt] at hi; exact absurd hi (by simp)
  case isFalse _ => exact hs

theorem fillPass_inv {b c : List Bool} {size s : ℕ}
    (h : Inv b size c) (h3 : 3 ≤ s) (hsz : s ≤ size + 2) :
    Inv b size (fillPass c s) :=
  foldl_preserve (Inv b size) (fillStep s) _ c h
    (fun a _ ha _ => ⟨fillStep_mono ha.1, fillStep_sound ha.1 ha.2 h3 hsz⟩)

theorem mem_probeSizes {size s : ℕ} (h : s ∈ probeSizes size) :
    3 ≤ s ∧ s ≤ size + 2 := by
  unfold probeSizes at h
  rw [List.mem_reverse, List.mem_range'_1] at h
  omega

theorem fill_inv (b : List Bool) (size : ℕ) :
    Inv b size (fill_hole_1d b size) := by
  unfold fill_hole_1d
  refine foldl_preserve (Inv b size) fillPass _ b
    ⟨⟨rfl, fun _ h => h⟩, fun _ h => Or.inl h⟩ ?_
  intro a s ha hs
  obtain ⟨h3, hsz⟩ := mem_probeSizes hs
  exact fillPass_inv ha h3 hsz

theorem match_touch_run {b : List Bool} {size l u : ℕ}
    (hw : FillableWin b size l u) {c : List Bool} {shift s : ℕ}
    (hm : Mono b c) (hrf : RunFalse l u c)
    (hp : probeMatches c shift s = true) {k : ℕ}
    (hk1 : l ≤ k) (hk2 : k ≤ u) (hk3 : shift ≤ k) (hk4 : k < shift + s) :
    shift = l - 1 ∧ s = u + 1 - l + 2 := by
  obtain ⟨hlen, hL, hR, hInt⟩ := probeMatches_spec hp
  obtain ⟨h1l, hlu, hulen, hsize, hbl, hbu, hrun⟩ := hw
  have hneS : k ≠ shift := by
    intro he
    have h := hrf k hk1 hk2
    rw [he, hL] at h
    exact absurd h (by simp)
  have hneE : k ≠ shift + s - 1 := by
    intro he
    have h := hrf k hk1 hk2
    rw [he, hR] at h
    exact absurd h (by simp)
  have hbfalse : ∀ m, shift + 1 ≤ m → m ≤ shift + s - 2 →
      b.getD m false = false := by
    intro m hm1 hm2
    have hmlt : m - (shift + 1) < s - 2 := by omega
    have hc := hInt _ hmlt
    rw [show shift + 1 + (m - (shift + 1)) = m by omega] at hc
    cases hb : b.getD m false
    · rfl
    · rw [hm.2 m hb] at hc; exact absurd hc (by simp)
  have hmid1 : shift + 1 ≤ k := by omega
  have hmid2 : k ≤ shift + s - 2 := by omega
  have hge : l ≤ shift + 1 := by
    by_contra h
    have hf := hbfalse (l - 1) (by omega) (by omega)
    rw [hbl] at hf
    exact absurd hf (by simp)
  have hle : shift + s - 2 ≤ u := by
    by_contra h
    have hf := hbfalse (u + 1) (by omega) (by omega)
    rw [hbu] at hf
    exact absurd hf (by simp)
  have hshift : shift = l - 1 := by
    by_contra h
    have hsh : l ≤ shift := by omega
    have hf := hrf shift hsh (by omega)
    rw [hL] at hf
    exact absurd hf (by simp)
  have hend : shift + s - 1 = u + 1 := by
    by_contra h
    have hend' : shift + s - 1 ≤ u := by omega
    have hf := hrf (shift + s - 1) (by omega) hend'
    rw [hR] at hf
    exact absurd hf (by simp)
  exact ⟨hshift, by omega⟩

theorem fillStep_runFalse {b : List Bool} {size l u : ℕ}
    (hw : FillableWin b size l u) {c : List Bool} {s shift : ℕ}
    (hm : Mono b c) (hrf : RunFalse l u c)
    (hne : shift ≠ l - 1 ∨ s ≠ u + 1 - l + 2) :
    RunFalse l u (fillStep s c shift) := by
  unfold fillStep
  split
  case isTrue hp =>
    intro k hk1 hk2
    have hklen : k < c.length := by
      have h1 := hm.1
      have h2 := hw.2.2.1
      omega
    rw [getD_setRange, if_pos hklen]
    by_cases hwdw : shift ≤ k ∧ k < shift + s
    · obtain ⟨e1, e2⟩ := match_touch_run hw hm hrf hp hk1 hk2 hwdw.1 hwdw.2
      rcases hne with h | h
      · exact absurd e1 h
      · exact absurd e2 h
    · rw [if_neg hwdw]; exact hrf k hk1 hk2
  case isFalse _ => exact hrf

theorem fillPass_runFalse {b : List Bool} {size l u : ℕ}
    (hw : FillableWin b size l u) {c : List Bool} {s : ℕ}
    (h : Mono b c ∧ RunFalse l u c) (hne : s ≠ u + 1 - l + 2) :
    Mono b (fillPass c s) ∧ RunFalse l u (fillPass c s) :=
  foldl_preserve (fun c' => Mono b c' ∧ RunFalse l u c') (fillStep s) _ c h
    (fun a _ ha _ =>
      ⟨fillStep_mono ha.1, fillStep_runFalse hw ha.1 ha.2 (Or.inr hne)⟩)

theorem probeMatches_at_run {b : List Bool} {size l u : ℕ}
    (hw : FillableWin b size l u) {c : List Bool}
    (hm : Mono b c) (hrf : RunFalse l u c) :
    probeMatches c (l - 1) (u + 1 - l + 2) = true := by
  obtain ⟨h1l, hlu, hulen, hsize, hbl, hbu, hrun⟩ := hw
  unfold probeMatches
  simp only [Bool.and_eq_true, decide_eq_true_eq]
  refine ⟨⟨⟨?_, ?_⟩, ?_⟩, ?_⟩
  · rw [hm.1]; omega
  · exact hm.2 _ hbl
  · rw [show l - 1 + (u + 1 - l + 2) - 1 = u + 1 by omega]
    exact hm.2 _ hbu
  · intro m hmlt
    rw [show l - 1 + 1 + m = l + m by omega]
    exact hrf (l + m) (by omega) (by omega)

theorem fillStep_at_run {b : List Bool} {size l u : ℕ}
    (hw : FillableWin b size l u) {c : List Bool}
    (hm : Mono b c) (hrf : RunFalse l u c) :
    RunTrue l u (fillStep (u + 1 - l + 2) c (l - 1)) := by
  unfold fillStep
  rw [if_pos (probeMatches_at_run hw hm hrf)]
  intro k hk1 hk2
  have hklen : k < c.length := by
    have h1 := hm.1
    have h2 := hw.2.2.1
    omega
  rw [getD_setRange, if_pos hklen, if_pos ?_]
  have h1l := hw.1
  omega

theorem runTrue_of_grow {l u : ℕ} {c c' : List Bool}
    (h : Grow c c') (hrt : RunTrue l u c) : RunTrue l u c' :=
  fun k h1 h2 => h k (hrt k h1 h2)

theorem fill_complete {b : List Bool} {size l u i : ℕ}
    (hw : FillableWin b size l u) (hi1 : l ≤ i) (hi2 : i ≤ u) :
    (fill_hole_1d b size).getD i false = true := by
  have h1l := hw.1
  have hlu := hw.2.1
  have hulen := hw.2.2.1
  have hsize := hw.2.2.2.1
  have hrun := hw.2.2.2.2.2.2
  set L := u + 1 - l with hLdef
  have hL1 : 1 ≤ L := by omega
  have hLsize : L ≤ size := by omega
  -- decompose the pass list around the probe size of this run
  have hsplit : probeSizes size
      = (List.range' (L + 3) (size - L)).reverse
        ++ ([L + 2] ++ (List.range' 3 (L - 1)).reverse) := by
    unfold probeSizes
    have e1 : List.range' 3 (L - 1) ++ List.range' (L + 2) (size - L + 1)
        = List.range' 3 size := by
      have h := List.range'_append_1 3 (L - 1) (size - L + 1)
      rw [show 3 + (L - 1) = L + 2 by omega,
        show size - L + 1 + (L - 1) = size by omega] at h
      exact h
    have e2 : [L + 2] ++ List.range' (L + 3) (size - L)
        = List.range' (L + 2) (size - L + 1) := by
      have h := List.range'_append_1 (L + 2) 1 (size - L)
      rw [show L + 2 + 1 = L + 3 by omega] at h
      simpa using h
    rw [← e1, ← e2]
    simp [List.reverse_append]
  unfold fill_hole_1d
  rw [hsplit, List.foldl_append, List.foldl_append]
  -- stage 1: larger probes leave the run untouched
  set c1 := ((List.range' (L + 3) (size - L)).reverse).foldl fillPass b with hc1
  have hstage1 : Mono b c1 ∧ RunFalse l u c1 := by
    refine foldl_preserve (fun c => Mono b c ∧ RunFalse l u c) fillPass _ b
      ⟨⟨rfl, fun _ h => h⟩, fun k hk1 hk2 => hrun k hk2 hk1⟩ ?_
    intro a s ha hs
    rw [List.mem_reverse, List.mem_range'_1] at hs
    exact fillPass_runFalse hw ha (by omega)
  -- stage 2: the run's own pass fills it
  have hstage2 : RunTrue l u (List.foldl fillPass c1 [L + 2]) := by
    have hlenc1 : c1.length = b.length := hstage1.1.1
    simp only [List.foldl_cons, List.foldl_nil]
    unfold fillPass
    have hn : l - 1 < c1.length + 1 - (L + 2) := by omega
    have hrange : List.range (c1.length + 1 - (L + 2))
        = List.range (l - 1)
          ++ ((l - 1) :: List.range' l (c1.length + 1 - (L + 2) - l)) := by
      have hsplit2 : List.range' 0 (l - 1)
            ++ List.range' (l - 1) (c1.length + 1 - (L + 2) - (l - 1))
          = List.range' 0 (c1.length + 1 - (L + 2)) := by
        have h := List.range'_append_1 0 (l - 1)
          (c1.length + 1 - (L + 2) - (l - 1))
        rw [show 0 + (l - 1) = l - 1 by omega,
          show c1.length + 1 - (L + 2) - (l - 1) + (l - 1)
            = c1.length + 1 - (L + 2) by omega] at h
        exact h
      have hcons : List.range' (l - 1) (c1.length + 1 - (L + 2) - (l - 1))
          = (l - 1) :: List.range' l (c1.length + 1 - (L + 2) - l) := by
        rw [show c1.length + 1 - (L + 2) - (l - 1)
          = (c1.length + 1 - (L + 2) - l) + 1 by omega]
        rw [List.range'_succ, show l - 1 + 1 = l by omega]
      rw [List.range_eq_range', ← hsplit2, hcons, ← List.range_eq_range']
    rw [hrange, List.foldl_append]
    set c2 := (List.range (l - 1)).foldl (fillStep (L + 2)) c1 with hc2
    have hstage2a : Mono b c2 ∧ RunFalse l u c2 := by
      refine foldl_preserve (fun c => Mono b c ∧ RunFalse l u c)
        (fillStep (L + 2)) _ c1 hstage1 ?_
      intro a shift ha hs
      rw [List.mem_range] at hs
      exact ⟨fillStep_mono ha.1,
        fillStep_runFalse hw ha.1 ha.2 (Or.inl (by omega))⟩
    simp only [List.foldl_cons]
    exact runTrue_of_grow (foldl_fillStep_grow _ _)
      (fillStep_at_run hw hstage2a.1 hstage2a.2)
  -- stage 3: the remaining passes only grow the state
  exact runTrue_of_grow (foldl_fillPass_grow _ _) hstage2 i hi1 hi2

theorem fill_hole_1d_length (b : List Bool) (size : ℕ) :
    (fill_hole_1d b size).length = b.length := (fill_inv b size).1.1

theorem fill_hole_spec (b : List Bool) (size : ℕ) :
    fill_hole_1d b size
      = (List.range b.length).map fun i =>
          b.getD i false || inFillable b size i := by
  apply List.ext_getElem
  · simp [fill_hole_1d_length]
  · intro i h1 h2
    rw [← List.getD_eq_getElem _ false h1]
    have hi : i < b.length := by
      rw [fill_hole_1d_length] at h1; exact h1
    rw [List.getElem_map, List.getElem_range]
    cases hb : b.getD i false
    · cases hf : inFillable b size i
      · simp only [Bool.or_false]
        cases hres : (fill_hole_1d b size).getD i false
        · rfl
        · rcases (fill_inv b size).2 i hres with h | h
          · rw [hb] at h; exact absurd h (by simp)
          · rw [hf] at h; exact absurd h (by simp)
      · simp only [Bool.or_true]
        obtain ⟨l, u, hli, hiu, hw⟩ := (inFillable_iff b size i).mp hf
        exact fill_complete hw hli hiu
    · simp only [Bool.true_or]
      exact (fill_inv b size).1.2 i hb

theorem getD_fill_hole (b : List Bool) (size k : ℕ) :
    (fill_hole_1d b size).getD k false
      = (b.getD k false || inFillable b size k) := by
  by_cases hk : k < b.length
  · rw [fill_hole_spec]
    rw [List.getD_eq_getElem _ false (by simpa using hk)]
    rw [List.getElem_map, List.getElem_range]
  · rw [List.getD_eq_default _ _ (by rw [fill_hole_1d_length]; omega)]
    rw [List.getD_eq_default _ _ (by omega)]
    cases hf : inFillable b size k
    · rfl
    · exfalso
      obtain ⟨l, u, hlk, hku, hw⟩ := (inFillable_iff b size k).mp hf
      have := hw.2.2.1
      omega

theorem inFillable_fill {b : List Bool} {size i : ℕ}
    (h : inFillable (fill_hole_1d b size) size i = true) :
    (fill_hole_1d b size).getD i false = true := by
  exfalso
  obtain ⟨l, u, hli, hiu, hw'⟩ := (inFillable_iff _ _ _).mp h
  obtain ⟨h1l, hlu, hulen', hsize', hbl', hbu', hrun'⟩ := hw'
  rw [fill_hole_1d_length] at hulen'
  have hBfalse : ∀ k, l ≤ k → k ≤ u →
      b.getD k false = false ∧ inFillable b size k = false := by
    intro k h1 h2
    have hk := hrun' k h2 h1
    rw [getD_fill_hole] at hk
    refine ⟨?_, ?_⟩
    · cases hb : b.getD k false
      · rfl
      · rw [hb, Bool.true_or] at hk; exact absurd hk (by simp)
    · cases hfb : inFillable b size k
      · rfl
      · rw [hfb, Bool.or_true] at hk; exact absurd hk (by simp)
  rw [getD_fill_hole] at hbl' hbu'
  cases hbL : b.getD (l - 1) false
  case false =>
    -- the left boundary lies in a fillable hole of b; so does l, contradiction
    have hfL : inFillable b size (l - 1) = true := by
      rw [hbL, Bool.false_or] at hbl'; exact hbl'
    have hblf : b.getD (l - 1 + 1) false = false := by
      rw [show l - 1 + 1 = l by omega]
      exact (hBfalse l (le_refl l) (by omega)).1
    have hc := inFillable_succ hfL hblf
    rw [show l - 1 + 1 = l by omega] at hc
    rw [(hBfalse l (le_refl l) (by omega)).2] at hc
    exact absurd hc (by simp)
  case true =>
    cases hbR : b.getD (u + 1) false
    case false =>
      -- the right boundary lies in a fillable hole of b; so does u
      have hfR : inFillable b size (u + 1) = true := by
        rw [hbR, Bool.false_or] at hbu'; exact hbu'
      have hbuf : b.getD (u + 1 - 1) false = false := by
        rw [show u + 1 - 1 = u by omega]
        exact (hBfalse u (by omega) (le_refl u)).1
      have hc := inFillable_pred hfR (by omega) hbuf
      rw [show u + 1 - 1 = u by omega] at hc
      rw [(hBfalse u (by omega) (le_refl u)).2] at hc
      exact absurd hc (by simp)
    case true =>
      -- both boundaries valid in b: [l, u] is a fillable hole of b already
      have hwb : FillableWin b size l u :=
        ⟨h1l, hlu, hulen', hsize', hbL, hbR,
          fun k h1 h2 => (hBfalse k h2 h1).1⟩
      have hc := hwb.mem_fillable hli hiu
      rw [(hBfalse i hli hiu).2] at hc
      exact absurd hc (by simp)

theorem fill_hole_1d_idem_core (b : List Bool) (size : ℕ) :
    fill_hole_1d (fill_hole_1d b size) size = fill_hole_1d b size := by
  apply List.ext_getElem
  · simp [fill_hole_1d_length]
  · intro i h1 h2
    rw [← List.getD_eq_getElem _ false h1, ← List.getD_eq_getElem _ false h2]
    conv_lhs => rw [getD_fill_hole]
    cases hf : inFillable (fill_hole_1d b size) size i
    · rw [Bool.or_false]
    · rw [Bool.or_true]
      exact (inFillable_fill hf).symm

/-! ## Properties of the overlap resolvers -/

theorem distSq_symm (p q : Pt) : distSq p q = distSq q p := by
  unfold distSq; ring

theorem allPairsFar_spec {points : List Pt} {d : ℚ}
    (h : allPairsFar points d = true) :
    ∀ i j, i < points.length → j < points.length → i < j →
      d ^ 2 < distSq (points.getD i default) (points.getD j default) := by
  intro i j hi hj hij
  unfold allPairsFar at h
  rw [List.all_eq_true] at h
  have h1 := h i (by simpa using hi)
  rw [List.all_eq_true] at h1
  have h2 := h1 j (by simpa using hj)
  rw [if_pos hij] at h2
  exact of_decide_eq_true h2

theorem allPairsFar_of_short {points : List Pt} {d : ℚ}
    (h : points.length ≤ 1) : allPairsFar points d = true := by
  unfold allPairsFar
  rw [List.all_eq_true]
  intro i hi
  rw [List.all_eq_true]
  intro j hj
  rw [List.mem_range] at hi hj
  rw [if_neg (by omega)]

theorem argminAux_none : ∀ {xs : List ℚ}, argminAux xs = none → xs = []
  | [], _ => rfl
  | x :: xs, h => by
    unfold argminAux at h
    cases hrec : argminAux xs with
    | none => rw [hrec] at h; simp at h
    | some im =>
      obtain ⟨i, m⟩ := im
      rw [hrec] at h
      dsimp only at h
      split at h <;> simp at h

theorem argminAux_spec :
    ∀ (xs : List ℚ) {i : ℕ} {m : ℚ}, argminAux xs = some (i, m) →
      i < xs.length ∧ xs.getD i 0 = m ∧
        ∀ j, j < xs.length → m ≤ xs.getD j 0
  | [], i, m, h => by simp [argminAux] at h
  | x :: xs, i, m, h => by
    unfold argminAux at h
    cases hrec : argminAux xs with
    | none =>
      rw [hrec] at h
      dsimp only at h
      have hxs := argminAux_none hrec
      subst hxs
      simp only [Option.some.injEq, Prod.mk.injEq] at h
      obtain ⟨hi, hm⟩ := h
      subst hi; subst hm
      refine ⟨by simp, by simp [List.getD], ?_⟩
      intro j hj
      have : j = 0 := by simpa using Nat.lt_one_iff.mp (by simpa using hj)
      subst this
      simp [List.getD]
    | some im =>
      obtain ⟨i', m'⟩ := im
      rw [hrec] at h
      dsimp only at h
      obtain ⟨hlt, hval, hmin⟩ := argminAux_spec xs hrec
      by_cases hx : x ≤ m'
      · rw [if_pos hx] at h
        simp only [Option.some.injEq, Prod.mk.injEq] at h
        obtain ⟨hi, hm⟩ := h
        subst hi; subst hm
        refine ⟨by simp, by simp [List.getD], ?_⟩
        intro j hj
        cases j with
        | zero => simp [List.getD]
        | succ j' =>
          rw [List.getD_cons_succ]
          exact le_trans hx (hmin j' (by simpa using hj))
      · rw [if_neg hx] at h
        simp only [Option.some.injEq, Prod.mk.injEq] at h
        obtain ⟨hi, hm⟩ := h
        subst hi; subst hm
        refine ⟨by simpa using hlt, by simpa [List.getD_cons_succ] using hval, ?_⟩
        intro j hj
        cases j with
        | zero =>
          rw [List.getD_cons_zero]
          exact le_of_lt (lt_of_not_le hx)
        | succ j' =>
          rw [List.getD_cons_succ]
          exact hmin j' (by simpa using hj)

theorem argmin_spec {xs : List ℚ} (h : xs ≠ []) :
    argmin xs < xs.length ∧
      ∀ j, j < xs.length → xs.getD (argmin xs) 0 ≤ xs.getD j 0 := by
  unfold argmin
  cases hrec : argminAux xs with
  | none => exact absurd (argminAux_none hrec) h
  | some im =>
    obtain ⟨i, m⟩ := im
    obtain ⟨h1, h2, h3⟩ := argminAux_spec xs hrec
    exact ⟨h1, fun j hj => h2 ▸ h3 j hj⟩

theorem maskSelect_subset {points : List Pt} {x : List Bool} :
    ∀ q ∈ maskSelect points x, q ∈ points := by
  intro q hq
  unfold maskSelect at hq
  rw [List.mem_map] at hq
  obtain ⟨i, hi, rfl⟩ := hq
  rw [List.mem_filter, List.mem_range] at hi
  rw [List.getD_eq_getElem _ _ hi.1]
  exact List.getElem_mem _

theorem maskSelect_pairwise {points : List Pt} {d : ℚ} {n : ℕ}
    {x : List Bool} (hf : lpFeasible points d n x) :
    (maskSelect points x).Pairwise (fun p q => ¬ distSq p q < d ^ 2) := by
  unfold maskSelect
  rw [List.pairwise_map]
  have hpw : ((List.range points.length).filter
      (fun i => x.getD i false)).Pairwise (· < ·) :=
    (List.pairwise_lt_range _).sublist (List.filter_sublist _)
  refine hpw.imp_of_mem ?_
  intro a b ha hb hab
  rw [List.mem_filter, List.mem_range] at ha hb
  have := hf.2.2 a ha.1 b hb.1 (by omega) ha.2 hb.2
  exact fun hc => absurd hc (not_lt.mpr this)

theorem lpSearch_feasible {solver : SolverT} {points : List Pt}
    {errors : List ℚ} {d : ℚ} {x : List Bool}
    (hsound : SolverSound solver)
    (h : lpSearch solver points errors d = some x) :
    ∃ n, lpFeasible points d n x := by
  unfold lpSearch at h
  obtain ⟨n, _, hsolve⟩ := List.exists_of_findSome?_eq_some h
  exact ⟨n, hsound _ _ _ _ _ hsolve⟩

theorem solve_overlap_lp_pairwise {solver : SolverT} {points : List Pt}
    {errors : List ℚ} {d : ℚ} (hsound : SolverSound solver) :
    (solve_overlap_lp solver points errors d).Pairwise
      (fun p q => ¬ distSq p q < d ^ 2) := by
  unfold solve_overlap_lp
  by_cases hfar : allPairsFar points d
  · rw [if_pos hfar, List.pairwise_iff_getElem]
    intro a b ha hb hab
    have hd := allPairsFar_spec hfar a b ha hb hab
    rw [List.getD_eq_getElem _ _ ha, List.getD_eq_getElem _ _ hb] at hd
    exact fun hc => absurd hc (not_lt.mpr (le_of_lt hd))
  · rw [if_neg hfar]
    by_cases hlen : points.length ≤ 1
    · rw [if_pos hlen, List.pairwise_iff_getElem]
      intro a b ha hb hab
      omega
    · rw [if_neg hlen]
      cases hs : lpSearch solver points errors d with
      | some x =>
        obtain ⟨n, hf⟩ := lpSearch_feasible hsound hs
        exact maskSelect_pairwise hf
      | none => simp

theorem solve_overlap_lp_subset {solver : SolverT} {points : List Pt}
    {errors : List ℚ} {d : ℚ} (herr : errors.length = points.length) :
    ∀ q ∈ solve_overlap_lp solver points errors d, q ∈ points := by
  unfold solve_overlap_lp
  by_cases hfar : allPairsFar points d
  · rw [if_pos hfar]; exact fun q hq => hq
  · rw [if_neg hfar]
    by_cases hlen : points.length ≤ 1
    · rw [if_pos hlen]; exact fun q hq => hq
    · rw [if_neg hlen]
      cases hs : lpSearch solver points errors d with
      | some x => exact maskSelect_subset
      | none =>
        intro q hq
        rw [List.mem_singleton] at hq
        subst hq
        have herrne : errors ≠ [] := by
          intro hnil
          rw [hnil] at herr
          simp at herr
          omega
        have harg := (argmin_spec herrne).1
        rw [List.getD_eq_getElem _ _ (by omega)]
        exact List.getElem_mem _

theorem cliqueResult_mem {solver : SolverT} {labels : List ℕ}
    {points : List Pt} {errors : List ℚ} {d : ℚ} {val : ℕ}
    (herr : errors.length = points.length) :
    ∀ q ∈ cliqueResult solver labels points errors d val,
      ∃ i, i < points.length ∧ labels.getD i 0 = val ∧
        q = points.getD i default := by
  intro q hq
  simp only [cliqueResult] at hq
  split at hq
  · rw [List.mem_map] at hq
    obtain ⟨i, hi, rfl⟩ := hq
    rw [List.mem_filter, List.mem_range] at hi
    exact ⟨i, hi.1, of_decide_eq_true hi.2, rfl⟩
  · have hq' := solve_overlap_lp_subset (by simp) q hq
    rw [List.mem_map] at hq'
    obtain ⟨i, hi, rfl⟩ := hq'
    rw [List.mem_filter, List.mem_range] at hi
    exact ⟨i, hi.1, of_decide_eq_true hi.2, rfl⟩

theorem solve_overlap_lp_fast_pairwise {solver : SolverT} {labels : List ℕ}
    {nCliques : ℕ} {points : List Pt} {errors : List ℚ} {d : ℚ}
    (hsound : SolverSound solver) (herr : errors.length = points.length)
    (hlab : LabelsSound points d labels) :
    (solve_overlap_lp_fast solver labels nCliques points errors d).Pairwise
      (fun p q => ¬ distSq p q < d ^ 2) := by
  unfold solve_overlap_lp_fast
  rw [List.pairwise_flatMap]
  constructor
  · intro val _
    simp only [cliqueResult]
    split
    case isTrue hone =>
      rw [List.pairwise_iff_getElem]
      intro a b ha hb hab
      rw [List.length_map, hone] at ha hb
      omega
    case isFalse _ => exact solve_overlap_lp_pairwise hsound
  · refine (List.pairwise_lt_range nCliques).imp_of_mem ?_
    intro val val' hval hval' hlt x hx y hy
    obtain ⟨i, hi, hli, rfl⟩ := cliqueResult_mem herr x hx
    obtain ⟨j, hj, hlj, rfl⟩ := cliqueResult_mem herr y hy
    intro hc
    have hij : i ≠ j := by
      intro he
      subst he
      rw [hli] at hlj
      omega
    have := hlab i hi j hj hij hc
    rw [hli, hlj] at this
    omega

/-- Any backend that always reports infeasibility is (vacuously) sound. -/
theorem failSolver_sound : SolverSound failSolver :=
  fun _ _ _ _ _ h => by simp [failSolver] at h

/-- C1. For every input point set, error vector and positive diameter,
whenever the overlap optimization reports success (modelled by
`SolverSound`: any assignment the backend returns satisfies the posted
cardinality and separation constraints), the sets of points returned by
`solve_overlap_lp` and by `solve_overlap_lp_fast` (which solves connected
components independently, given any labelling consistent with the
proximity graph) contain no two points closer than `diameter`; comparisons
are in squared form, exact since `diameter > 0`.  This holds in all
branches: the no-overlap early return, a successful solve, and the
minimum-error fallback. -/
theorem overlap_resolvers_no_close_pairs (solver : SolverT)
    (points : List Pt) (errors : List ℚ) (diameter : ℚ) (labels : List ℕ)
    (nCliques : ℕ) (hsound : SolverSound solver) (hd : 0 < diameter)
    (herr : errors.length = points.length)
    (hlab : LabelsSound points diameter labels) :
    (solve_overlap_lp solver points errors diameter).Pairwise
      (fun p q => ¬ distSq p q < diameter ^ 2) ∧
    (solve_overlap_lp_fast solver labels nCliques points errors
        diameter).Pairwise (fun p q => ¬ distSq p q < diameter ^ 2) :=
  ⟨solve_overlap_lp_pairwise hsound,
    solve_overlap_lp_fast_pairwise hsound herr hlab⟩

/-- Witness for C1 at a concrete input: two points at distance `1/4` plus a
far-away third point, an always-infeasible backend and the labelling
`[0, 0, 1]` of the two proximity components. -/
theorem overlap_resolvers_no_close_pairs_witness :
    SolverSound failSolver ∧ (0 : ℚ) < 1 ∧
      ([(1 : ℚ), 2, 3] : List ℚ).length
        = ([⟨0, 0, 0⟩, ⟨1/4, 0, 0⟩, ⟨10, 0, 0⟩] : List Pt).length ∧
      LabelsSound [⟨0, 0, 0⟩, ⟨1/4, 0, 0⟩, ⟨10, 0, 0⟩] 1 [0, 0, 1] ∧
      ((solve_overlap_lp failSolver
          [⟨0, 0, 0⟩, ⟨1/4, 0, 0⟩, ⟨10, 0, 0⟩] [1, 2, 3] 1).Pairwise
        (fun p q => ¬ distSq p q < 1 ^ 2) ∧
      (solve_overlap_lp_fast failSolver [0, 0, 1] 2
          [⟨0, 0, 0⟩, ⟨1/4, 0, 0⟩, ⟨10, 0, 0⟩] [1, 2, 3] 1).Pairwise
        (fun p q => ¬ distSq p q < 1 ^ 2)) :=
  ⟨failSolver_sound, by norm_num, rfl, by with_unfolding_all decide,
    overlap_resolvers_no_close_pairs failSolver _ _ _ _ 2 failSolver_sound
      (by norm_num) rfl (by with_unfolding_all decide)⟩

/-- C7. For every non-empty input on which the ladder of target sizes
is actually attempted (there is an overlapping pair, or the input is a
single point so that the function returns before any solve), if the backend
reports infeasibility at every target size then `solve_overlap_lp` returns
exactly one point — the input point with the (first) minimum error — and no
error is raised (the embedding is total). -/
theorem solve_overlap_lp_total_infeasible (solver : SolverT)
    (points : List Pt) (errors : List ℚ) (diameter : ℚ)
    (hne : points ≠ []) (herr : errors.length = points.length)
    (hfail : ∀ n, solver points errors diameter n = none)
    (hladder : allPairsFar points diameter = false ∨ points.length = 1) :
    solve_overlap_lp solver points errors diameter
      = [points.getD (argmin errors) default] ∧
      argmin errors < errors.length ∧
      ∀ j, j < errors.length →
        errors.getD (argmin errors) 0 ≤ errors.getD j 0 := by
  have herrne : errors ≠ [] := by
    intro hnil
    rw [hnil] at herr
    simp only [List.length_nil] at herr
    exact hne (List.length_eq_zero.mp herr.symm)
  obtain ⟨hlt, hmin⟩ := argmin_spec herrne
  refine ⟨?_, hlt, hmin⟩
  rcases hladder with hfar | hone
  · have hlen2 : ¬ points.length ≤ 1 := by
      intro hle
      rw [allPairsFar_of_short hle] at hfar
      cases hfar
    unfold solve_overlap_lp
    rw [if_neg (by rw [hfar]; exact Bool.false_ne_true)]
    rw [if_neg hlen2]
    have hsearch : lpSearch solver points errors diameter = none := by
      unfold lpSearch
      rw [List.findSome?_eq_none_iff]
      exact fun n _ => hfail n
    rw [hsearch]
  · obtain ⟨p, hp⟩ : ∃ p, points = [p] := by
      cases points with
      | nil => simp at hone
      | cons a tl =>
        cases tl with
        | nil => exact ⟨a, rfl⟩
        | cons b tl2 => simp at hone
    subst hp
    unfold solve_overlap_lp
    rw [if_pos (allPairsFar_of_short (by simp))]
    have h0 : argmin errors = 0 := by
      rw [hone] at herr
      omega
    rw [h0]
    rfl

/-- Witness for C7: two points at distance `1/2 < diameter = 1` with errors
`[2, 1]` and an always-infeasible backend; the minimum-error point
`(1/2, 0, 0)` (index `argmin [2, 1] = 1`) is returned alone. -/
theorem solve_overlap_lp_total_infeasible_witness :
    ([⟨0, 0, 0⟩, ⟨1/2, 0, 0⟩] : List Pt) ≠ [] ∧
      allPairsFar [⟨0, 0, 0⟩, ⟨1/2, 0, 0⟩] 1 = false ∧
      (solve_overlap_lp failSolver [⟨0, 0, 0⟩, ⟨1/2, 0, 0⟩] [2, 1] 1
          = [([⟨0, 0, 0⟩, ⟨1/2, 0, 0⟩] : List Pt).getD (argmin [2, 1]) default] ∧
        argmin [2, 1] < ([2, 1] : List ℚ).length ∧
        ∀ j, j < ([2, 1] : List ℚ).length →
          ([2, 1] : List ℚ).getD (argmin [2, 1]) 0 ≤ ([2, 1] : List ℚ).getD j 0) :=
  ⟨by simp, by with_unfolding_all decide,
    solve_overlap_lp_total_infeasible failSolver _ _ _ (by simp) rfl
      (fun _ => rfl) (Or.inl (by with_unfolding_all decide))⟩

/-! ## Trajectory Normalizer: behaviour on all-invalid fragments -/

theorem interpolate_nan_all_none {coords : List (Option Pt)}
    (hne : coords ≠ []) (hall : ∀ k, coords.getD k none = none) :
    interpolate_nan coords = .error "array of sample points is empty" := by
  unfold interpolate_nan
  rw [if_neg (by simpa using hne)]
  have hfilter : (List.range (tailIdx coords + 1 - headIdx coords)).filter
      (fun r => (coords.getD (headIdx coords + r) none).isSome) = [] := by
    apply List.filter_eq_nil_iff.mpr
    intro r _
    rw [hall (headIdx coords + r)]
    simp
  dsimp only
  rw [hfilter]
  simp

/-- C2 (code bug): a fragment with no valid sample makes the anchor set
of `np.interp` empty, so `convert_traj_format` propagates
`ValueError: array of sample points is empty` raised inside
`interpolate_nan` instead of returning an empty trajectory. -/
theorem convert_traj_format_all_none (traj : Frag) (t0 : ℕ)
    (hne : traj.pos ≠ []) (hall : ∀ p ∈ traj.pos, p = none) :
    convert_traj_format traj t0
      = .error "array of sample points is empty" := by
  have hgetD : ∀ k, traj.pos.getD k none = none := by
    intro k
    by_cases hk : k < traj.pos.length
    · rw [List.getD_eq_getElem _ _ hk]
      exact hall _ (List.getElem_mem _)
    · exact List.getD_eq_default _ _ (by omega)
  simp only [convert_traj_format, interpolate_nan_all_none hne hgetD]

/-- Witness for C2 at the concrete failing input: a single all-NaN row. -/
theorem convert_traj_format_all_none_witness :
    (Frag.mk [none] 0).pos ≠ [] ∧ (∀ p ∈ (Frag.mk [none] 0).pos, p = none) ∧
      convert_traj_format ⟨[none], 0⟩ 0
        = .error "array of sample points is empty" :=
  ⟨by simp, by simp,
    convert_traj_format_all_none ⟨[none], 0⟩ 0 (by simp) (by simp)⟩

/-! ## `get_valid_ctraj`: the validity flag leaks across fragments -/

/-- C3 (code bug): the keep/discard decision is *not* independent per
fragment.  The fragment with two valid samples at `z = 5` inside
`[z_min, z_max] = [0, 10]` is kept when alone, but discarded when preceded
by an invalid fragment (`z = 20`, single sample), because `is_valid` is
initialized outside the loop and multiplied in place. -/
theorem get_valid_ctraj_not_independent :
    get_valid_ctraj
        [⟨[some ⟨0, 0, 20⟩], 1⟩, ⟨[some ⟨0, 0, 5⟩, some ⟨1, 0, 5⟩], 2⟩]
        0 10 = [] ∧
      get_valid_ctraj [⟨[some ⟨0, 0, 5⟩, some ⟨1, 0, 5⟩], 2⟩] 0 10
        = [⟨[some ⟨0, 0, 5⟩, some ⟨1, 0, 5⟩], 2⟩] := by
  with_unfolding_all decide

/-! ## `fill_hole_1d`: claims C4 and C9 -/

/-- C4 (counterexample): with `size = 2` the bounded invalid run of
length `L = 2` in `[1, 0, 0, 1]` satisfies `L ≥ size`, yet it *is* made
valid — the code fills holes with `L ≤ size`, not `L < size` (its own
doctest agrees). -/
theorem fill_hole_len_eq_size_filled :
    fill_hole_1d [true, false, false, true] 2
      = [true, true, true, true] := by decide

/-- C4 (amended): `fill_hole_1d` makes valid exactly those maximal runs
of invalid entries that are bounded by valid entries on both sides and
whose length `L` satisfies `L ≤ size`; runs with `L > size` (and runs
touching either end of the array) remain invalid. -/
theorem fill_hole_1d_characterization (b : List Bool) (size : ℕ) :
    fill_hole_1d b size
      = (List.range b.length).map
          (fun i => b.getD i false || inFillable b size i) :=
  fill_hole_spec b size

/-- C9: `fill_hole_1d` is idempotent. -/
theorem fill_hole_1d_idem (b : List Bool) (size : ℕ) :
    fill_hole_1d (fill_hole_1d b size) size = fill_hole_1d b size :=
  fill_hole_1d_idem_core b size

/-! ## Temporal Stitcher: claim C5 -/

/-- C5: three batches, each containing one fragment of length 6 with
identical positions, covering frames `[0,6)`, `[3,9)`, `[6,12)`, stitched
with `lag = 3`, `ntol = 2`, `rtol = 1`, yield a single trajectory with
start frame 0 and 12 consecutive positions — i.e. frames `[0,12)`, length
12, no duplicated frame numbers. -/
theorem resolve_temporal_overlap_three_batches :
    resolve_temporal_overlap [rampBatch 0, rampBatch 3, rampBatch 6] 3 2 1
      = ([⟨(List.range 12).map (fun t => some ⟨(t : ℚ), 0, 0⟩), 0⟩],
         [0]) := by
  with_unfolding_all decide

/-! ## Temporal overlap pairs: claim C6 -/

theorem gtop_mem {b1 b2 : List Frag} {lag ntol : ℕ} {rtol : ℚ}
    {unique : UniqueMode} {i j : ℕ} :
    (i, j) ∈ get_temporal_overlapped_pairs b1 b2 lag ntol rtol unique ↔
      i < b1.length ∧ j < b2.length ∧
        (decide (ntol ≤ connMat b1 b2 lag rtol i j) &&
          (if unique ≠ UniqueMode.nomode ∧ 0 < b1.length ∧ 0 < b2.length
           then tempMask b1 b2 lag rtol unique i j else true)) = true := by
  unfold get_temporal_overlapped_pairs
  simp only [List.mem_flatMap, List.mem_range, List.mem_filterMap,
    Option.ite_none_right_eq_some, Option.some.injEq, Prod.mk.injEq]
  constructor
  · rintro ⟨i', hi', j', hj', hcond, rfl, rfl⟩
    exact ⟨hi', hj', hcond⟩
  · rintro ⟨hi, hj, hcond⟩
    exact ⟨i, hi, j, hj, hcond, rfl, rfl⟩

/-- C6 (counterexample): with a tied best match — two identical
fragments in the second batch — fragment 0 of the first batch occurs in
*two* returned pairs under the `'conn'` uniqueness policy: the
approximate-equality masks keep every tied pair. -/
theorem temporal_pairs_tie_counterexample :
    get_temporal_overlapped_pairs (rampBatch 0) [rampFrag 3, rampFrag 3]
        3 2 1 UniqueMode.conn = [(0, 0), (0, 1)] := by
  with_unfolding_all decide

/-- C6 (amended): under a uniqueness policy (`'dist'` or `'conn'`),
every returned pair is simultaneously within `np.isclose` tolerance of the
best score from the first fragment's perspective (row mask) and from the
second fragment's perspective (column mask); when, for the fragments of
the two batches (in-range indices), the best score of each relevant row
(resp. column) is attained within tolerance at a *unique* partner, every
fragment index occurs in at most one returned pair — but exact ties
survive in multiple pairs. -/
theorem temporal_pairs_best_match (b1 b2 : List Frag) (lag ntol : ℕ)
    (rtol : ℚ) (unique : UniqueMode)
    (hu : unique = UniqueMode.dist ∨ unique = UniqueMode.conn) :
    (∀ p ∈ get_temporal_overlapped_pairs b1 b2 lag ntol rtol unique,
      p.1 < b1.length ∧ p.2 < b2.length ∧
        ntol ≤ connMat b1 b2 lag rtol p.1 p.2 ∧
        colClose b1 b2 lag rtol unique p.1 p.2 = true ∧
        rowClose b1 b2 lag rtol unique p.1 p.2 = true) ∧
    ((∀ i, i < b1.length → ∀ j, j < b2.length → ∀ j', j' < b2.length →
        j ≠ j' → ¬(rowClose b1 b2 lag rtol unique i j = true ∧
          rowClose b1 b2 lag rtol unique i j' = true)) →
      ∀ i j j',
        (i, j) ∈ get_temporal_overlapped_pairs b1 b2 lag ntol rtol unique →
        (i, j') ∈ get_temporal_overlapped_pairs b1 b2 lag ntol rtol unique →
        j = j') ∧
    ((∀ i, i < b1.length → ∀ i', i' < b1.length → ∀ j, j < b2.length →
        i ≠ i' → ¬(colClose b1 b2 lag rtol unique i j = true ∧
          colClose b1 b2 lag rtol unique i' j = true)) →
      ∀ i i' j,
        (i, j) ∈ get_temporal_overlapped_pairs b1 b2 lag ntol rtol unique →
        (i', j) ∈ get_temporal_overlapped_pairs b1 b2 lag ntol rtol unique →
        i = i') := by
  have hnm : unique ≠ UniqueMode.nomode := by
    rcases hu with h | h <;> (subst h; intro hc; cases hc)
  have hmain : ∀ p ∈ get_temporal_overlapped_pairs b1 b2 lag ntol rtol unique,
      p.1 < b1.length ∧ p.2 < b2.length ∧
        ntol ≤ connMat b1 b2 lag rtol p.1 p.2 ∧
        colClose b1 b2 lag rtol unique p.1 p.2 = true ∧
        rowClose b1 b2 lag rtol unique p.1 p.2 = true := by
    rintro ⟨i, j⟩ hp
    obtain ⟨hi, hj, hcond⟩ := gtop_mem.mp hp
    rw [if_pos ⟨hnm, by omega, by omega⟩] at hcond
    rw [Bool.and_eq_true] at hcond
    obtain ⟨hadj, hmask⟩ := hcond
    unfold tempMask at hmask
    rw [Bool.and_eq_true] at hmask
    exact ⟨hi, hj, of_decide_eq_true hadj, hmask.1, hmask.2⟩
  refine ⟨hmain, ?_, ?_⟩
  · intro hrow i j j' hp hp'
    by_contra hne
    exact hrow i (hmain _ hp).1 j (hmain _ hp).2.1 j' (hmain _ hp').2.1 hne
      ⟨(hmain _ hp).2.2.2.2, (hmain _ hp').2.2.2.2⟩
  · intro hcol i i' j hp hp'
    by_contra hne
    exact hcol i (hmain _ hp).1 i' (hmain _ hp').1 j (hmain _ hp).2.1 hne
      ⟨(hmain _ hp).2.2.2.1, (hmain _ hp').2.2.2.1⟩

/-- Witness for C6 at a concrete input: two batches of two fragments each,
tracking two well-separated objects.  The uniqueness antecedents of the
theorem are *satisfied non-vacuously* here (each fragment's best-match
masks hold at exactly one in-range partner: the same object's fragment),
and the theorem is applied with them discharged, yielding the at-most-one
conclusions for this input. -/
theorem temporal_pairs_best_match_witness :
    (UniqueMode.conn = UniqueMode.dist ∨ UniqueMode.conn = UniqueMode.conn) ∧
      (∀ i, i < ([rampFrag 0, farFrag 0] : List Frag).length →
        ∀ j, j < ([rampFrag 3, farFrag 3] : List Frag).length →
        ∀ j', j' < ([rampFrag 3, farFrag 3] : List Frag).length → j ≠ j' →
        ¬(rowClose [rampFrag 0, farFrag 0] [rampFrag 3, farFrag 3] 3 1
            UniqueMode.conn i j = true ∧
          rowClose [rampFrag 0, farFrag 0] [rampFrag 3, farFrag 3] 3 1
            UniqueMode.conn i j' = true)) ∧
      (∀ i, i < ([rampFrag 0, farFrag 0] : List Frag).length →
        ∀ i', i' < ([rampFrag 0, farFrag 0] : List Frag).length →
        ∀ j, j < ([rampFrag 3, farFrag 3] : List Frag).length → i ≠ i' →
        ¬(colClose [rampFrag 0, farFrag 0] [rampFrag 3, farFrag 3] 3 1
            UniqueMode.conn i j = true ∧
          colClose [rampFrag 0, farFrag 0] [rampFrag 3, farFrag 3] 3 1
            UniqueMode.conn i' j = true)) ∧
      (∀ i j j',
        (i, j) ∈ get_temporal_overlapped_pairs [rampFrag 0, farFrag 0]
          [rampFrag 3, farFrag 3] 3 2 1 UniqueMode.conn →
        (i, j') ∈ get_temporal_overlapped_pairs [rampFrag 0, farFrag 0]
          [rampFrag 3, farFrag 3] 3 2 1 UniqueMode.conn →
        j = j') ∧
      (∀ i i' j,
        (i, j) ∈ get_temporal_overlapped_pairs [rampFrag 0, farFrag 0]
          [rampFrag 3, farFrag 3] 3 2 1 UniqueMode.conn →
        (i', j) ∈ get_temporal_overlapped_pairs [rampFrag 0, farFrag 0]
          [rampFrag 3, farFrag 3] 3 2 1 UniqueMode.conn →
        i = i') ∧
      (∀ p ∈ get_temporal_overlapped_pairs [rampFrag 0, farFrag 0]
          [rampFrag 3, farFrag 3] 3 2 1 UniqueMode.conn,
        p.1 < ([rampFrag 0, farFrag 0] : List Frag).length ∧
          p.2 < ([rampFrag 3, farFrag 3] : List Frag).length ∧
          2 ≤ connMat [rampFrag 0, farFrag 0] [rampFrag 3, farFrag 3] 3 1
            p.1 p.2 ∧
          colClose [rampFrag 0, farFrag 0] [rampFrag 3, farFrag 3] 3 1
            UniqueMode.conn p.1 p.2 = true ∧
          rowClose [rampFrag 0, farFrag 0] [rampFrag 3, farFrag 3] 3 1
            UniqueMode.conn p.1 p.2 = true) :=
  ⟨Or.inr rfl, by with_unfolding_all decide, by with_unfolding_all decide,
    (temporal_pairs_best_match [rampFrag 0, farFrag 0]
      [rampFrag 3, farFrag 3] 3 2 1 UniqueMode.conn (Or.inr rfl)).2.1
      (by with_unfolding_all decide),
    (temporal_pairs_best_match [rampFrag 0, farFrag 0]
      [rampFrag 3, farFrag 3] 3 2 1 UniqueMode.conn (Or.inr rfl)).2.2
      (by with_unfolding_all decide),
    (temporal_pairs_best_match [rampFrag 0, farFrag 0]
      [rampFrag 3, farFrag 3] 3 2 1 UniqueMode.conn (Or.inr rfl)).1⟩

/-! ## `get_overlap_pairs`: claim C8 -/

theorem get_overlap_pairs_mem {trajs : List Frag} {num : ℕ} {rtol : ℚ}
    {i j : ℕ} :
    (i, j) ∈ get_overlap_pairs trajs num rtol ↔
      i < j ∧ j < trajs.length ∧
        num ≤ overlapCount (trajs.getD i default).pos
          (trajs.getD j default).pos rtol := by
  unfold get_overlap_pairs
  simp only [List.mem_flatMap, List.mem_range, List.mem_filterMap,
    Option.ite_none_right_eq_some, Option.some.injEq, Prod.mk.injEq]
  constructor
  · rintro ⟨i', hi', j', hj', hcond, rfl, rfl⟩
    exact ⟨hcond.1, hj', hcond.2⟩
  · rintro ⟨hij, hj, hcount⟩
    exact ⟨i, by omega, j, hj, ⟨hij, hcount⟩, rfl, rfl⟩

theorem get_overlap_pairs_nodup (trajs : List Frag) (num : ℕ) (rtol : ℚ) :
    (get_overlap_pairs trajs num rtol).Nodup := by
  unfold get_overlap_pairs
  rw [List.nodup_flatMap]
  constructor
  · intro i _
    refine List.Nodup.filterMap ?_ (List.nodup_range _)
    intro j j' b hj hj'
    rw [Option.mem_def, Option.ite_none_right_eq_some] at hj hj'
    obtain ⟨-, hjb⟩ := hj
    rw [Option.some.injEq] at hjb
    subst hjb
    obtain ⟨-, h⟩ := hj'
    simp only [Option.some.injEq, Prod.mk.injEq] at h
    omega
  · refine (List.pairwise_lt_range _).imp_of_mem ?_
    intro a b _ _ hab x hxa hxb
    rw [List.mem_filterMap] at hxa hxb
    obtain ⟨j1, _, hj1⟩ := hxa
    obtain ⟨j2, _, hj2⟩ := hxb
    rw [Option.ite_none_right_eq_some] at hj1 hj2
    obtain ⟨-, hjx⟩ := hj1
    rw [Option.some.injEq] at hjx
    subst hjx
    obtain ⟨-, h⟩ := hj2
    simp only [Option.some.injEq, Prod.mk.injEq] at h
    omega

/-- C8: for every non-empty list of fragments on a common time axis of
length `T`, `get_overlap_pairs` returns, without duplicates, exactly the
pairs `(i, j)` with `i < j` whose count of offsets at which both samples
are present and strictly closer than `rtol` (squared comparison; missing
samples never counted) reaches `num`; no self-pairs. -/
theorem get_overlap_pairs_spec (trajs : List Frag) (num : ℕ) (rtol : ℚ)
    (T : ℕ) (hne : trajs ≠ []) (hT : ∀ t ∈ trajs, t.pos.length = T) :
    (get_overlap_pairs trajs num rtol).Nodup ∧
      ∀ i j, (i, j) ∈ get_overlap_pairs trajs num rtol ↔
        i < j ∧ j < trajs.length ∧
          num ≤ overlapCount (trajs.getD i default).pos
            (trajs.getD j default).pos rtol :=
  ⟨get_overlap_pairs_nodup trajs num rtol,
    fun _ _ => get_overlap_pairs_mem⟩

/-- Witness for C8: three fragments where A and B coincide at all 3 ≥ 2
offsets and C is far from both; the spec applied there, plus the concrete
consequence that the returned pairs are exactly `[(0, 1)]`. -/
theorem get_overlap_pairs_spec_witness :
    ([exTrajA, exTrajB, exTrajC] : List Frag) ≠ [] ∧
      (∀ t ∈ ([exTrajA, exTrajB, exTrajC] : List Frag), t.pos.length = 3) ∧
      ((get_overlap_pairs [exTrajA, exTrajB, exTrajC] 2 1).Nodup ∧
        ∀ i j, (i, j) ∈ get_overlap_pairs [exTrajA, exTrajB, exTrajC] 2 1 ↔
          i < j ∧ j < ([exTrajA, exTrajB, exTrajC] : List Frag).length ∧
            2 ≤ overlapCount
              (([exTrajA, exTrajB, exTrajC] : List Frag).getD i default).pos
              (([exTrajA, exTrajB, exTrajC] : List Frag).getD j
                default).pos 1) :=
  ⟨by simp, by decide,
    get_overlap_pairs_spec [exTrajA, exTrajB, exTrajC] 2 1 3 (by simp)
      (by decide)⟩

/-! ## `remove_spatial_overlap`: claim C10 -/

theorem join_pairs_ne_nil (ps : List (ℕ × ℕ)) :
    ∀ g ∈ join_pairs ps, g ≠ [] := by
  unfold join_pairs
  refine foldl_preserve (fun groups => ∀ g ∈ groups, g ≠ []) _ ps [] ?_ ?_
  · intro g hg
    cases hg
  · intro acc p hacc _ g hg
    rw [List.mem_append] at hg
    rcases hg with hg | hg
    · exact hacc g (List.mem_of_mem_filter hg)
    · rw [List.mem_singleton] at hg
      subst hg
      intro hnil
      have hp2 : p.2 ∈ (((acc.filter
          (fun g => decide (p.1 ∈ g ∨ p.2 ∈ g))).flatten
            ++ [p.1, p.2]).dedup) := by
        rw [List.mem_dedup]
        simp
      rw [hnil] at hp2
      cases hp2

theorem range_map_getD {α : Type} [Inhabited α] (l : List α) :
    (List.range l.length).map (fun i => l.getD i default) = l := by
  apply List.ext_getElem
  · simp
  · intro i h1 h2
    rw [List.getElem_map, List.getElem_range]
    exact List.getD_eq_getElem _ _ h2

theorem group_best_spec (fil : List Frag) (g : List ℕ) (hg : g ≠ []) :
    rsoChoice fil g ∈ g ∧
      ∀ m ∈ g, (fil.getD (rsoChoice fil g) default).err
        ≤ (fil.getD m default).err := by
  unfold rsoChoice
  have hes : g.map (fun idx => (fil.getD idx default).err) ≠ [] := by
    simpa using hg
  obtain ⟨hlt, hmin⟩ := argmin_spec hes
  rw [List.length_map] at hlt
  constructor
  · rw [List.getD_eq_getElem _ _ hlt]
    exact List.getElem_mem _
  · intro m hm
    rw [List.mem_iff_getElem] at hm
    obtain ⟨k, hk, rfl⟩ := hm
    have h1 := hmin k (by simpa using hk)
    rw [List.getD_eq_getElem _ _ (by simpa using hlt),
      List.getD_eq_getElem _ _ (by simpa using hk),
      List.getElem_map, List.getElem_map] at h1
    rw [List.getD_eq_getElem _ _ hlt]
    exact h1

/-- C10: `remove_spatial_overlap` first discards every fragment with
fewer than two valid samples; it then returns (a) each remaining fragment
belonging to no connected group of mutually overlapping fragments,
unchanged, and (b) for each connected group exactly one member, one that
attains the minimum reprojection error within the group.  The groups are
formed by joining the overlap pairs (`join_pairs`, modelled from the
spec).  `T` is the common time-axis length required by the vectorized
distance computation. -/
theorem remove_spatial_overlap_spec (trajectories : List Frag) (ntol : ℕ)
    (rtol : ℚ) (T : ℕ) (hT : ∀ t ∈ trajectories, t.pos.length = T) :
    (remove_spatial_overlap trajectories ntol rtol
      = ((List.range (rsoFiltered trajectories).length).filter
          (fun i => decide (∀ g ∈ rsoGroups trajectories ntol rtol,
            i ∉ g))).map
            (fun i => (rsoFiltered trajectories).getD i default)
        ++ (rsoGroups trajectories ntol rtol).map (fun g =>
            (rsoFiltered trajectories).getD
              (rsoChoice (rsoFiltered trajectories) g) default)) ∧
      ∀ g ∈ rsoGroups trajectories ntol rtol,
        rsoChoice (rsoFiltered trajectories) g ∈ g ∧
          ∀ m ∈ g,
            ((rsoFiltered trajectories).getD
              (rsoChoice (rsoFiltered trajectories) g) default).err
              ≤ ((rsoFiltered trajectories).getD m default).err := by
  constructor
  · have hfiltereq :
        ((List.range (rsoFiltered trajectories).length).filter
          (fun i => decide (i ∉ (rsoGroups trajectories ntol rtol).flatten)))
        = ((List.range (rsoFiltered trajectories).length).filter
          (fun i => decide (∀ g ∈ rsoGroups trajectories ntol rtol,
            i ∉ g))) := by
      apply List.filter_congr
      intro i _
      rw [decide_eq_decide]
      rw [List.mem_flatten]
      push_neg
      rfl
    unfold remove_spatial_overlap
    by_cases hfil : (rsoFiltered trajectories).length = 0
    · rw [if_pos hfil]
      have hfilnil : rsoFiltered trajectories = [] :=
        List.length_eq_zero.mp hfil
      have hgroups : rsoGroups trajectories ntol rtol = [] := by
        unfold rsoGroups
        rw [hfilnil]
        rfl
      rw [hfilnil, hgroups]
      rfl
    · rw [if_neg hfil]
      by_cases hjop : (rsoGroups trajectories ntol rtol).length = 0
      · rw [if_pos hjop]
        have hjopnil : rsoGroups trajectories ntol rtol = [] :=
          List.length_eq_zero.mp hjop
        rw [hjopnil]
        have : ((List.range (rsoFiltered trajectories).length).filter
            (fun i => decide (∀ g ∈ ([] : List (List ℕ)), i ∉ g)))
            = List.range (rsoFiltered trajectories).length := by
          apply List.filter_eq_self.mpr
          intro a _
          simp
        rw [this, range_map_getD, List.map_nil, List.append_nil]
      · rw [if_neg hjop, hfiltereq]
  · intro g hg
    exact group_best_spec (rsoFiltered trajectories) g
      (join_pairs_ne_nil _ g hg)

/-- Witness for C10: the three example fragments (A and B overlap, C is
alone); the group `{0, 1}` contributes its minimum-error member A, and C is
returned unchanged. -/
theorem remove_spatial_overlap_spec_witness :
    (∀ t ∈ ([exTrajA, exTrajB, exTrajC] : List Frag),
      t.pos.length = 3) ∧
      ((remove_spatial_overlap [exTrajA, exTrajB, exTrajC] 2 1
        = ((List.range (rsoFiltered [exTrajA, exTrajB, exTrajC]).length).filter
            (fun i => decide (∀ g ∈ rsoGroups [exTrajA, exTrajB, exTrajC] 2 1,
              i ∉ g))).map
              (fun i => (rsoFiltered [exTrajA, exTrajB, exTrajC]).getD i default)
          ++ (rsoGroups [exTrajA, exTrajB, exTrajC] 2 1).map (fun g =>
              (rsoFiltered [exTrajA, exTrajB, exTrajC]).getD
                (rsoChoice (rsoFiltered [exTrajA, exTrajB, exTrajC]) g)
                default)) ∧
        ∀ g ∈ rsoGroups [exTrajA, exTrajB, exTrajC] 2 1,
          rsoChoice (rsoFiltered [exTrajA, exTrajB, exTrajC]) g ∈ g ∧
            ∀ m ∈ g,
              ((rsoFiltered [exTrajA, exTrajB, exTrajC]).getD
                (rsoChoice (rsoFiltered [exTrajA, exTrajB, exTrajC]) g)
                default).err
                ≤ ((rsoFiltered [exTrajA, exTrajB, exTrajC]).getD m
                    default).err) :=
  ⟨by decide, remove_spatial_overlap_spec [exTrajA, exTrajB, exTrajC] 2 1 3
    (by decide)⟩

end FishPy
